import Mathlib

/-!
Shallow embedding of `mcxToProfile.py` (SalProfileGenerator): a utility that
assembles "Custom Settings" Configuration Profiles from plist files and
Directory Services MCX data.

Modelling conventions:
* Property-list trees are the inductive `PValue`; dictionaries are association
  lists in insertion order (the plist codec itself is an external collaborator).
* `uuid4()` is nondeterministic; it is modelled by an explicit supply
  `GenState` (a stream `gen : Nat -> String` plus a counter), and
  `makeNewUUID` draws the next element of the stream.
* `NSDate.new()` (the current time) is modelled by an explicit `now : Nat`
  argument carried into the operations that stamp a timestamp.
* The git-revision probe in `PayloadDict.__init__` is an environmental side
  effect; its outcome is passed in as `gitrev : Option String`.
* Python truthiness of the `uuid` argument (`if uuid:`) is modelled by
  `pyTruthy` on `Option String` (`uuid=False` becomes `none`; a supplied
  string is truthy exactly when it is nonempty).
-/

/-- Property-list values: the structural model used by the plist codec. -/
inductive PValue where
  | str : String → PValue
  | int : Int → PValue
  | bool : Bool → PValue
  | date : Nat → PValue
  | arr : List PValue → PValue
  | dict : List (String × PValue) → PValue

/-- State of the UUID supply modelling `uuid4()`: a stream of generated
strings and a counter pointing at the next fresh one. -/
structure GenState where
  gen : Nat → String
  k : Nat

/-- `makeNewUUID()` in the source is `str(uuid4())`; here it draws the next
element of the supply. -/
def makeNewUUID (g : GenState) : String × GenState :=
  (g.gen g.k, { g with k := g.k + 1 })

/-- Python truthiness of the `uuid` parameter: `False` (our `none`) and the
empty string are falsy; any nonempty string is truthy. -/
def pyTruthy : Option String → Bool
  | none => false
  | some s => !(s == "")

/-- One element of the profile's `PayloadContent` array, as built by
`PayloadDict._addPayload`. -/
structure Payload where
  payloadVersion : Nat
  payloadUUID : String
  payloadEnabled : Bool
  payloadType : String
  payloadIdentifier : String
  payloadContent : List (String × PValue)

/-- The top-level profile dictionary `self.data` of class `PayloadDict`,
plus the `self.gitrev` attribute. -/
structure PayloadDict where
  payloadVersion : Nat
  payloadOrganization : String
  payloadUUID : String
  payloadRemovalDisallowed : Bool
  payloadType : String
  payloadScope : String
  payloadDescription : String
  payloadDisplayName : String
  payloadIdentifier : String
  payloadContent : List Payload
  gitrev : Option String

/-- `PayloadDict.__init__(identifier, uuid=False, removal_allowed=False,
organization='', displayname='')`. The git probe's result arrives as
`gitrev`; the UUID supply is threaded. -/
def PayloadDict.init (identifier : String) (uuid : Option String)
    (removal_allowed : Bool) (organization : String) (displayname : String)
    (gitrev : Option String) (g : GenState) : PayloadDict × GenState :=
  let uuidDrawn := if pyTruthy uuid then (uuid.getD "", g) else makeNewUUID g
  ({ payloadVersion := 1
     payloadOrganization := organization
     payloadUUID := uuidDrawn.1
     payloadRemovalDisallowed := if removal_allowed then false else true
     payloadType := "Configuration"
     payloadScope := "System"
     payloadDescription := "Included custom settings:\n"
     payloadDisplayName := displayname
     payloadIdentifier := identifier
     payloadContent := []
     gitrev := gitrev }, uuidDrawn.2)

/-- The format string
`"%s.%s.alacarte.customsettings.%s" % ('MCXToProfile', docUUID, subUUID)`
used for a sub-payload's `PayloadIdentifier`. Note the first field is the
literal `'MCXToProfile'`, not the document's identifier. -/
def subPayloadIdentifier (docUUID subUUID : String) : String :=
  "MCXToProfile" ++ "." ++ docUUID ++ ".alacarte.customsettings." ++ subUUID

/-- `PayloadDict._addPayload(payload_content_dict)`: appends one boilerplate
payload wrapping the given content dict, updating description and (lazily)
display name. -/
def PayloadDict._addPayload (pd : PayloadDict)
    (payload_content_dict : List (String × PValue)) (g : GenState) :
    PayloadDict × GenState :=
  let domains := payload_content_dict.map Prod.fst
  let domain := if domains.length == 1 then domains.headD ""
                else "multiple preference domains"
  let description :=
    if domains.length == 1 then
      pd.payloadDescription ++ domains.headD "" ++ "\n"
    else
      pd.payloadDescription ++ String.intercalate "\n" domains
  let drawn := makeNewUUID g
  let payload_dict : Payload :=
    { payloadVersion := 1
      payloadUUID := drawn.1
      payloadEnabled := true
      payloadType := "com.apple.ManagedClient.preferences"
      payloadIdentifier := subPayloadIdentifier pd.payloadUUID drawn.1
      payloadContent := payload_content_dict }
  let displayname :=
    if pd.payloadDisplayName == "" then "MCXToProfile: " ++ domain
    else pd.payloadDisplayName
  ({ pd with
      payloadDescription := description
      payloadDisplayName := displayname
      payloadContent := pd.payloadContent ++ [payload_dict] }, drawn.2)

/-- `PayloadDict.addPayloadFromPlistContents(plist_dict, domain, manage,
is_byhost=False)`; `now` models `NSDate.new()` for the `'Once'` stamp. -/
def PayloadDict.addPayloadFromPlistContents (pd : PayloadDict)
    (plist_dict : PValue) (domain : String) (manage : String)
    (is_byhost : Bool) (now : Nat) (g : GenState) : PayloadDict × GenState :=
  let state := if manage == "Always" then "Forced" else "Set-Once"
  let domain2 := if is_byhost then domain ++ ".ByHost" else domain
  let wrapper : List (String × PValue) :=
    if manage == "Once" then
      [("mcx_preference_settings", plist_dict),
       ("mcx_data_timestamp", PValue.date now)]
    else
      [("mcx_preference_settings", plist_dict)]
  pd._addPayload [(domain2, PValue.dict [(state, PValue.arr [PValue.dict wrapper])])] g

/-- `PayloadDict.addPayloadFromMCX(mcxdata)`: the MCX body is already
shaped; it is appended without transformation. -/
def PayloadDict.addPayloadFromMCX (pd : PayloadDict)
    (mcxdata : List (String × PValue)) (g : GenState) :
    PayloadDict × GenState :=
  pd._addPayload mcxdata g

/-- `PayloadDict.finalizeAndSave(output_path)` minus the external
`writePlist`: appends the git-revision description line when `self.gitrev`
is truthy and returns the document that gets serialized. -/
def PayloadDict.finalizeAndSave (pd : PayloadDict) : PayloadDict :=
  if pyTruthy pd.gitrev then
    { pd with payloadDescription :=
        pd.payloadDescription ++ "\nGit revision: " ++ ((pd.gitrev.getD "").take 10) }
  else pd

/-! ### Domain inference (`getDomainFromPlist`) -/

/-- `os.path.basename`: everything after the last `'/'`. -/
def basenameL (l : List Char) : List Char :=
  (l.reverse.takeWhile (fun c => c ≠ '/')).reverse

/-- Index of the first occurrence of `sep` as a contiguous sublist, as
scanned by Python's `str.split(sep)`. -/
def findSub (sep : List Char) : List Char → Option Nat
  | [] => if sep.isEmpty then some 0 else none
  | c :: cs =>
    if sep.isPrefixOf (c :: cs) then some 0
    else (findSub sep cs).map (· + 1)

/-- `s.split(sep)[0]`: everything before the first occurrence of `sep`
(the whole string when `sep` does not occur). -/
def takeUntilSub (sep : List Char) (l : List Char) : List Char :=
  match findSub sep l with
  | none => l
  | some i => l.take i

/-- Whether `sep` occurs as a contiguous sublist. -/
def hasSub (sep l : List Char) : Bool :=
  (findSub sep l).isSome

/-- `str.split('.')` on char lists. -/
def splitChar (sep : Char) : List Char → List (List Char)
  | [] => [[]]
  | c :: cs =>
    if c = sep then [] :: splitChar sep cs
    else
      match splitChar sep cs with
      | [] => [[c]]
      | h :: t => (c :: h) :: t

/-- `sep.join(parts)`: concatenate with a single-character separator
between parts. -/
def joinSep (c : Char) : List (List Char) → List Char
  | [] => []
  | [x] => x
  | x :: y :: xs => x ++ c :: joinSep c (y :: xs)

/-- `'.'.join(name.split('.')[0:-1])`: drop the last dot-separated
component. -/
def dropLastComponentL (l : List Char) : List Char :=
  joinSep '.' ((splitChar '.' l).dropLast)

/-- `[0-9a-fA-F]` of the byhost regex. -/
def hexDigit (c : Char) : Bool :=
  ('0' ≤ c && c ≤ '9') || ('a' ≤ c && c ≤ 'f') || ('A' ≤ c && c ≤ 'F')

/-- The last `n` characters. -/
def lastN (l : List Char) (n : Nat) : List Char :=
  l.drop (l.length - n)

/-- Does `l` end with a `'.'` followed by an `n`-character chunk satisfying
`p`?  This is one `$`-anchored alternative of the byhost pattern (a dot
plus a fixed-length token) tested at the absolute end of its subject: the
character `n+1` from the end is `'.'` and the last `n` characters satisfy
the shape. Python's `$` can also match just before a trailing newline;
`byhostMatchL` accounts for that second anchor position by first removing
one trailing newline with `dollarTrim`. -/
def dotSuffixMatch (l : List Char) (n : Nat) (p : List Char → Bool) : Bool :=
  decide (n + 1 ≤ l.length) &&
  ((lastN l (n + 1)).head? == some '.') &&
  p (lastN l n)

/-- The subject of a `$`-anchored match: Python's `re` `$` (without
`re.MULTILINE`) matches at the end of the string or just before a single
trailing newline, and no alternative's token can contain `'\n'`, so the
suffix tests apply to the name with one trailing newline removed. -/
def dollarTrim (l : List Char) : List Char :=
  if l.getLast? = some '\n' then l.dropLast else l

/-- The 8-4-4-4-12 hex shape
`[0-9a-fA-F]{8}-([0-9a-fA-F]{4}-){3}[0-9a-fA-F]{12}` (36 characters). -/
def uuid36 (t : List Char) : Bool :=
  t.length == 36 &&
  (t.take 8).all hexDigit && t.get? 8 == some '-' &&
  ((t.drop 9).take 4).all hexDigit && t.get? 13 == some '-' &&
  ((t.drop 14).take 4).all hexDigit && t.get? 18 == some '-' &&
  ((t.drop 19).take 4).all hexDigit && t.get? 23 == some '-' &&
  (t.drop 24).all hexDigit

/-- `re.search` of the full pattern
`\.ByHost$|\.[0-9a-fA-F]{12}$|\.[0-9a-fA-F]{8}-([0-9a-fA-F]{4}-){3}[0-9a-fA-F]{12}$`:
every alternative is anchored with `$`, which in Python (without
`re.MULTILINE`) matches at the end of the string or just before a single
trailing newline. Since no token shape contains `'\n'`, the search
succeeds exactly when one of the three dot-prefixed suffix shapes matches
at the end of the name with one trailing newline discounted. -/
def byhostMatchL (l : List Char) : Bool :=
  dotSuffixMatch (dollarTrim l) 6 (fun t => t == "ByHost".data) ||
  dotSuffixMatch (dollarTrim l) 12 (fun t => t.all hexDigit) ||
  dotSuffixMatch (dollarTrim l) 36 uuid36

/-- The `domain_info` result dict of `getDomainFromPlist`. -/
structure DomainInfo where
  name : String
  is_byhost : Bool
deriving DecidableEq

/-- `getDomainFromPlist(plist_path_or_name)`: strip the path and everything
from the first `'.plist'` on, then detect and strip a ByHost-style
suffix. -/
def getDomainFromPlist (plist_path_or_name : String) : DomainInfo :=
  let plist_file_name := takeUntilSub ".plist".data (basenameL plist_path_or_name.data)
  if byhostMatchL plist_file_name then
    { name := ⟨dropLastComponentL plist_file_name⟩, is_byhost := true }
  else
    { name := ⟨plist_file_name⟩, is_byhost := false }

/-! ### MCX attribute flattening (`getMCXData`) -/

/-- Python `d[key]` on an association-list dictionary: the value at the
first matching key, when present. -/
def lookupKey (d : List (String × PValue)) (key : String) : Option PValue :=
  (d.find? (fun kv => kv.1 == key)).map Prod.snd

/-- The flattening loop of `getMCXData`, after the external `dscl` call and
the per-item plist decode (both external collaborators): each decoded item
must carry `'mcx_application_data'`; a missing key aborts the whole
operation (`errorAndExit`), modelled by `Except.error` carrying the
offending item. -/
def getMCXData (mcx_data_plist : List (List (String × PValue))) :
    Except (List (String × PValue)) (List PValue) :=
  match mcx_data_plist with
  | [] => .ok []
  | item :: rest =>
    match lookupKey item "mcx_application_data" with
    | some v => (getMCXData rest).map (fun l => v :: l)
    | none => .error item

/-! ### Operation sequences and the `main` plist flow -/

/-- One mutation of the builder after creation: the two append entry points
and finalization. -/
inductive Op where
  | addPlist (plist_dict : PValue) (domain manage : String)
      (is_byhost : Bool) (now : Nat)
  | addMCX (mcxdata : List (String × PValue))
  | finalize

/-- Apply one operation to the builder, threading the UUID supply. -/
def applyOp (pd : PayloadDict) (g : GenState) : Op → PayloadDict × GenState
  | .addPlist t d m b now => pd.addPayloadFromPlistContents t d m b now g
  | .addMCX d => pd.addPayloadFromMCX d g
  | .finalize => (pd.finalizeAndSave, g)

/-- Apply a sequence of operations in order. -/
def applyOps (pd : PayloadDict) (g : GenState) : List Op → PayloadDict × GenState
  | [] => (pd, g)
  | op :: ops => applyOps (applyOp pd g op).1 (applyOp pd g op).2 ops

/-- The identifiers of the document's payload entries, in append order. -/
def entryIdentifiers (pd : PayloadDict) : List String :=
  pd.payloadContent.map Payload.payloadIdentifier

/-- The `--plist` branch of `main()`: create the builder, add one payload
per (path, decoded contents) pair using the inferred domain, then
finalize. -/
def mainPlistFlow (identifier : String) (uuid : Option String)
    (removal_allowed : Bool) (organization displayname : String)
    (gitrev : Option String) (manage : String)
    (plists : List (String × PValue)) (now : Nat) (g : GenState) :
    PayloadDict :=
  let created := PayloadDict.init identifier uuid removal_allowed
    organization displayname gitrev g
  let looped := plists.foldl
    (fun (acc : PayloadDict × GenState) pp =>
      let di := getDomainFromPlist pp.1
      acc.1.addPayloadFromPlistContents pp.2 di.name manage di.is_byhost now acc.2)
    created
  looped.1.finalizeAndSave

/-- The description split into lines, for "description contains the line
..." statements. -/
def descLines (pd : PayloadDict) : List String :=
  (splitChar '\n' pd.payloadDescription.data).map (fun l => (⟨l⟩ : String))

/-- Standard textual form of a version-4 UUID: 8-4-4-4-12 hex digits with
version nibble `4` and variant nibble in `[89abAB]`. This is the shape
guaranteed by the external `uuid4()` collaborator. -/
def isUUID4Format (s : String) : Bool :=
  uuid36 s.data && s.data.get? 14 == some '4' &&
  (match s.data.get? 19 with
   | some c => c = '8' || c = '9' || c = 'a' || c = 'b' || c = 'A' || c = 'B'
   | none => false)

/-- Modelled from the spec: the three trailing token shapes whose presence
(after a dot) marks a name as ByHost — the literal `ByHost`, a
12-hex-digit token, or an 8-4-4-4-12 hex token. This is the spec-side
characterization that the code's regex is compared against. -/
def isByHostToken (tok : String) : Bool :=
  tok == "ByHost" ||
  (tok.data.length == 12 && tok.data.all hexDigit) ||
  uuid36 tok.data

/-- Concrete end-to-end run for the dock example: one plist file
`com.apple.dock.plist` with contents `{"tilesize": 48}`, mode `"Always"`,
identifier `com.example.test`, no caller-supplied UUID, no git revision. -/
def dockExampleDoc : PayloadDict :=
  mainPlistFlow "com.example.test" none false "" "" none "Always"
    [("com.apple.dock.plist", PValue.dict [("tilesize", PValue.int 48)])] 0
    ⟨fun n => toString n, 0⟩

/-! ## Theorems -/

/-- C9: for every creation call, the serialized `PayloadRemovalDisallowed`
field equals the boolean negation of the `removal_allowed` argument. -/
theorem claim_C9_removal_disallowed_negation (identifier : String)
    (uuid : Option String) (removal_allowed : Bool)
    (organization displayname : String) (gitrev : Option String)
    (g : GenState) :
    (PayloadDict.init identifier uuid removal_allowed organization
      displayname gitrev g).1.payloadRemovalDisallowed = !removal_allowed := by
  cases removal_allowed <;> rfl

/-- C3: for every tree, domain, is-byhost flag and mode in
{Once, Often, Always}, `addPayloadFromPlistContents` appends one entry whose
content body maps the domain (with `.ByHost` appended exactly when
`is_byhost` is true) to a management record whose mode key is `"Forced"`
iff the mode is `"Always"` and `"Set-Once"` otherwise, and whose settings
wrapper carries the `mcx_data_timestamp` stamp exactly when the mode is
`"Once"`. -/
theorem claim_C3_plist_payload_shape (pd : PayloadDict) (g : GenState)
    (tree : PValue) (domain manage : String) (is_byhost : Bool) (now : Nat)
    (h : manage = "Once" ∨ manage = "Often" ∨ manage = "Always") :
    ∃ state wrapper,
      (pd.addPayloadFromPlistContents tree domain manage is_byhost now g).1.payloadContent
        = pd.payloadContent ++
          [{ payloadVersion := 1
             payloadUUID := g.gen g.k
             payloadEnabled := true
             payloadType := "com.apple.ManagedClient.preferences"
             payloadIdentifier := subPayloadIdentifier pd.payloadUUID (g.gen g.k)
             payloadContent := [((if is_byhost then domain ++ ".ByHost" else domain),
               PValue.dict [(state, PValue.arr [PValue.dict wrapper])])] }] ∧
      (state = "Forced" ↔ manage = "Always") ∧
      (state = "Set-Once" ↔ manage ≠ "Always") ∧
      ((lookupKey wrapper "mcx_data_timestamp").isSome = true ↔ manage = "Once") ∧
      lookupKey wrapper "mcx_preference_settings" = some tree := by
  rcases h with h | h | h <;> subst h
  · exact ⟨"Set-Once", [("mcx_preference_settings", tree),
      ("mcx_data_timestamp", PValue.date now)], rfl,
      by simp, by simp, by simp [lookupKey], rfl⟩
  · exact ⟨"Set-Once", [("mcx_preference_settings", tree)], rfl,
      by simp, by simp, by simp [lookupKey], rfl⟩
  · exact ⟨"Forced", [("mcx_preference_settings", tree)], rfl,
      by simp, by simp, by simp [lookupKey], rfl⟩

/-- Witness for C3 at a concrete input (mode `"Once"`). -/
theorem claim_C3_plist_payload_shape_witness :
    ("Once" = "Once" ∨ "Once" = "Often" ∨ "Once" = "Always") ∧
    (∃ state wrapper,
      (PayloadDict.init "id" none false "" "" none
          ⟨fun n => toString n, 0⟩).1.addPayloadFromPlistContents
          (PValue.int 7) "com.apple.dock" "Once" true 5
          ⟨fun n => toString n, 1⟩
        |>.1.payloadContent
        = [] ++
          [{ payloadVersion := 1
             payloadUUID := (⟨fun n => toString n, 1⟩ : GenState).gen 1
             payloadEnabled := true
             payloadType := "com.apple.ManagedClient.preferences"
             payloadIdentifier := subPayloadIdentifier
               (PayloadDict.init "id" none false "" "" none
                 ⟨fun n => toString n, 0⟩).1.payloadUUID
               ((⟨fun n => toString n, 1⟩ : GenState).gen 1)
             payloadContent := [((if true then "com.apple.dock" ++ ".ByHost"
                 else "com.apple.dock"),
               PValue.dict [(state, PValue.arr [PValue.dict wrapper])])] }] ∧
      (state = "Forced" ↔ ("Once" : String) = "Always") ∧
      (state = "Set-Once" ↔ ("Once" : String) ≠ "Always") ∧
      ((lookupKey wrapper "mcx_data_timestamp").isSome = true ↔
        ("Once" : String) = "Once") ∧
      lookupKey wrapper "mcx_preference_settings" = some (PValue.int 7)) :=
  ⟨Or.inl rfl,
   claim_C3_plist_payload_shape _ _ (PValue.int 7) "com.apple.dock" "Once"
     true 5 (Or.inl rfl)⟩

/-- C10: for every mode string whatsoever (also ones outside
{Once, Often, Always}), `addPayloadFromPlistContents` is total (the code
path performs no validation and raises nothing), the mode key is
`"Forced"` when the string is exactly `"Always"` and `"Set-Once"` for
every other string, and the timestamp is stamped exactly when the string
is exactly `"Once"`. -/
theorem claim_C10_any_mode_string_total (pd : PayloadDict) (g : GenState)
    (tree : PValue) (domain manage : String) (is_byhost : Bool) (now : Nat) :
    ∃ wrapper,
      (pd.addPayloadFromPlistContents tree domain manage is_byhost now g).1.payloadContent
        = pd.payloadContent ++
          [{ payloadVersion := 1
             payloadUUID := g.gen g.k
             payloadEnabled := true
             payloadType := "com.apple.ManagedClient.preferences"
             payloadIdentifier := subPayloadIdentifier pd.payloadUUID (g.gen g.k)
             payloadContent := [((if is_byhost then domain ++ ".ByHost" else domain),
               PValue.dict [((if manage = "Always" then "Forced" else "Set-Once"),
                 PValue.arr [PValue.dict wrapper])])] }] ∧
      ((lookupKey wrapper "mcx_data_timestamp").isSome = true ↔ manage = "Once") ∧
      lookupKey wrapper "mcx_preference_settings" = some tree := by
  by_cases hOnce : manage = "Once"
  · subst hOnce
    exact ⟨[("mcx_preference_settings", tree),
      ("mcx_data_timestamp", PValue.date now)], rfl, by simp [lookupKey], rfl⟩
  · by_cases hA : manage = "Always"
    · subst hA
      exact ⟨[("mcx_preference_settings", tree)], rfl,
        by simp [lookupKey], rfl⟩
    · refine ⟨[("mcx_preference_settings", tree)], ?_,
        by simp [lookupKey, hOnce], rfl⟩
      have e1 : (manage == "Always") = false := beq_eq_false_iff_ne.mpr hA
      have e2 : (manage == "Once") = false := beq_eq_false_iff_ne.mpr hOnce
      rw [if_neg hA]
      simp only [PayloadDict.addPayloadFromPlistContents, e1, e2,
        Bool.false_eq_true, if_false]
      rfl

/-- C6: a caller-supplied (nonempty, hence Python-truthy) UUID is adopted
verbatim as the document's `PayloadUUID` and the UUID supply is not
consulted; with no supplied UUID the document's `PayloadUUID` is the next
freshly generated value of the supply, which (by the `uuid4()` contract,
modelled as the hypothesis on the supply) is a version-4 UUID in standard
textual form. -/
theorem claim_C6_uuid_supplied_or_generated (identifier u : String)
    (removal_allowed : Bool) (organization displayname : String)
    (gitrev : Option String) (g : GenState)
    (hu : u ≠ "") (hv4 : isUUID4Format (g.gen g.k) = true) :
    ((PayloadDict.init identifier (some u) removal_allowed organization
        displayname gitrev g).1.payloadUUID = u ∧
     (PayloadDict.init identifier (some u) removal_allowed organization
        displayname gitrev g).2 = g) ∧
    ((PayloadDict.init identifier none removal_allowed organization
        displayname gitrev g).1.payloadUUID = g.gen g.k ∧
     isUUID4Format (PayloadDict.init identifier none removal_allowed
        organization displayname gitrev g).1.payloadUUID = true) := by
  have ht : pyTruthy (some u) = true := by simp [pyTruthy, hu]
  refine ⟨⟨?_, ?_⟩, ?_, ?_⟩
  · simp [PayloadDict.init, ht]
  · simp [PayloadDict.init, ht]
  · simp [PayloadDict.init, pyTruthy, makeNewUUID]
  · simpa [PayloadDict.init, pyTruthy, makeNewUUID] using hv4

/-- Witness for C6: a concrete supplied UUID and a concrete v4-shaped
supply. -/
theorem claim_C6_uuid_supplied_or_generated_witness :
    (("11111111-2222-4333-8444-555555555555" : String) ≠ "" ∧
     isUUID4Format ((⟨fun _ => "12345678-1234-4234-8234-1234567890ab", 0⟩ :
        GenState).gen (⟨fun _ => "12345678-1234-4234-8234-1234567890ab", 0⟩ :
        GenState).k) = true) ∧
    (((PayloadDict.init "com.example.test"
        (some "11111111-2222-4333-8444-555555555555") false "" "" none
        ⟨fun _ => "12345678-1234-4234-8234-1234567890ab", 0⟩).1.payloadUUID
        = "11111111-2222-4333-8444-555555555555" ∧
      (PayloadDict.init "com.example.test"
        (some "11111111-2222-4333-8444-555555555555") false "" "" none
        ⟨fun _ => "12345678-1234-4234-8234-1234567890ab", 0⟩).2
        = (⟨fun _ => "12345678-1234-4234-8234-1234567890ab", 0⟩ : GenState)) ∧
     ((PayloadDict.init "com.example.test" none false "" "" none
        ⟨fun _ => "12345678-1234-4234-8234-1234567890ab", 0⟩).1.payloadUUID
        = (⟨fun _ => "12345678-1234-4234-8234-1234567890ab", 0⟩ :
            GenState).gen (⟨fun _ => "12345678-1234-4234-8234-1234567890ab",
            0⟩ : GenState).k ∧
      isUUID4Format (PayloadDict.init "com.example.test" none false "" "" none
        ⟨fun _ => "12345678-1234-4234-8234-1234567890ab", 0⟩).1.payloadUUID
        = true)) :=
  ⟨⟨by decide, by decide⟩,
   claim_C6_uuid_supplied_or_generated "com.example.test"
     "11111111-2222-4333-8444-555555555555" false "" "" none
     ⟨fun _ => "12345678-1234-4234-8234-1234567890ab", 0⟩
     (by decide) (by decide)⟩

/-- C7: the dock end-to-end example — identifier `com.example.test`,
exactly one payload entry, its content body exactly
`{"com.apple.dock": {"Forced": [{"mcx_preference_settings":
{"tilesize": 48}}]}}`, and the description contains the line
`com.apple.dock`. -/
theorem claim_C7_dock_end_to_end :
    dockExampleDoc.payloadIdentifier = "com.example.test" ∧
    dockExampleDoc.payloadContent.length = 1 ∧
    dockExampleDoc.payloadContent.map Payload.payloadContent =
      [[("com.apple.dock", PValue.dict [("Forced", PValue.arr
        [PValue.dict [("mcx_preference_settings",
          PValue.dict [("tilesize", PValue.int 48)])]])])]] ∧
    "com.apple.dock" ∈ descLines dockExampleDoc :=
  ⟨rfl, rfl, rfl, by decide⟩

/-- Helper for C4: `getMCXData` succeeds with `vs` exactly when every item
carries `mcx_application_data` and `vs` is the ordered list of those
values. -/
theorem getMCXData_ok_iff (items : List (List (String × PValue)))
    (vs : List PValue) :
    getMCXData items = Except.ok vs ↔
      items.map (fun i => lookupKey i "mcx_application_data") = vs.map some := by
  induction items generalizing vs with
  | nil =>
    cases vs <;> simp [getMCXData]
  | cons item rest ih =>
    cases hl : lookupKey item "mcx_application_data" with
    | none =>
      cases vs <;> simp [getMCXData, hl]
    | some v =>
      cases hr : getMCXData rest with
      | error e =>
        cases vs with
        | nil => simp [getMCXData, hl, hr, Except.map]
        | cons w ws =>
          simp only [getMCXData, hl, hr, Except.map, List.map_cons]
          constructor
          · intro h; exact absurd h (by simp)
          · intro h
            have h2 : rest.map (fun i => lookupKey i "mcx_application_data")
                = ws.map some := by
              have := List.cons.injEq (some v)
                (rest.map (fun i => lookupKey i "mcx_application_data"))
                (some w) (ws.map some) ▸ h
              exact (List.cons_eq_cons.mp h).2
            have := (ih ws).mpr h2
            rw [hr] at this
            exact absurd this (by simp)
      | ok l =>
        have hrm : rest.map (fun i => lookupKey i "mcx_application_data")
            = l.map some := (ih l).mp hr
        have hstep : getMCXData (item :: rest)
            = (getMCXData rest).map (fun t => v :: t) := by
          simp [getMCXData, hl]
        rw [hstep, hr, List.map_cons, hl, hrm]
        show Except.ok (v :: l) = Except.ok vs ↔
          some v :: l.map some = vs.map some
        constructor
        · intro h
          have hv := Except.ok.inj h
          subst hv
          rfl
        · intro h
          cases vs with
          | nil => exact absurd h (by simp)
          | cons w ws =>
            have h2 : some v :: l.map some = some w :: ws.map some := h
            injection h2 with h3 h4
            have hvw := Option.some.inj h3
            have hlws : l = ws :=
              List.map_injective_iff.mpr
                (fun a b hab => Option.some.inj hab) h4
            rw [hvw, hlws]

/-- Helper for C4: a single item lacking `mcx_application_data` makes the
whole flattening fail with that item, regardless of any well-formed
items around it. -/
theorem getMCXData_error_of_missing (items : List (List (String × PValue))) :
    (∃ i ∈ items, lookupKey i "mcx_application_data" = none) →
    ∃ bad, bad ∈ items ∧ getMCXData items = Except.error bad ∧
      lookupKey bad "mcx_application_data" = none := by
  induction items with
  | nil => rintro ⟨i, hi, -⟩; exact absurd hi (List.not_mem_nil i)
  | cons item rest ih =>
    rintro ⟨i, hi, hnone⟩
    cases hl : lookupKey item "mcx_application_data" with
    | none =>
      exact ⟨item, List.mem_cons_self item rest, by simp [getMCXData, hl], hl⟩
    | some v =>
      have hir : i ∈ rest := by
        rcases List.mem_cons.mp hi with h | h
        · subst h; rw [hl] at hnone; exact absurd hnone (by simp)
        · exact h
      obtain ⟨bad, hbad, herr, hbnone⟩ := ih ⟨i, hir, hnone⟩
      exact ⟨bad, List.mem_cons_of_mem item hbad,
        by simp [getMCXData, hl, herr, Except.map], hbnone⟩

/-- C4: flattening a decoded MCX attribute returns exactly one body per
item, each the item's `mcx_application_data` value, in source order; and a
single item missing that key fails the whole operation (no partial result
of the remaining items). -/
theorem claim_C4_mcx_flattening (items : List (List (String × PValue)))
    (vs : List PValue) :
    (getMCXData items = Except.ok vs ↔
      items.map (fun i => lookupKey i "mcx_application_data") = vs.map some) ∧
    ((∃ i ∈ items, lookupKey i "mcx_application_data" = none) →
      ∃ bad, bad ∈ items ∧ getMCXData items = Except.error bad ∧
        lookupKey bad "mcx_application_data" = none) :=
  ⟨getMCXData_ok_iff items vs, getMCXData_error_of_missing items⟩

/-- Witness for C4: a concrete attribute whose only item lacks
`mcx_application_data` makes the whole operation fail. -/
theorem claim_C4_mcx_flattening_witness :
    (∃ i ∈ ([[("foo", PValue.int 1)]] : List (List (String × PValue))),
      lookupKey i "mcx_application_data" = none) ∧
    (∃ bad, bad ∈ ([[("foo", PValue.int 1)]] :
        List (List (String × PValue))) ∧
      getMCXData [[("foo", PValue.int 1)]] = Except.error bad ∧
      lookupKey bad "mcx_application_data" = none) :=
  have hx : ∃ i ∈ ([[("foo", PValue.int 1)]] :
      List (List (String × PValue))),
      lookupKey i "mcx_application_data" = none :=
    ⟨[("foo", PValue.int 1)], List.mem_singleton_self _, rfl⟩
  ⟨hx, (claim_C4_mcx_flattening [[("foo", PValue.int 1)]] []).2 hx⟩

/-- Helper for C8 and C1: one post-creation operation never touches the
document's UUID, identifier, version, organization, removal flag, type,
scope or git revision, and never changes the UUID stream. -/
theorem applyOp_preserves (pd : PayloadDict) (g : GenState) (op : Op) :
    (applyOp pd g op).1.payloadUUID = pd.payloadUUID ∧
    (applyOp pd g op).1.payloadIdentifier = pd.payloadIdentifier ∧
    (applyOp pd g op).1.payloadVersion = pd.payloadVersion ∧
    (applyOp pd g op).1.payloadOrganization = pd.payloadOrganization ∧
    (applyOp pd g op).1.payloadRemovalDisallowed = pd.payloadRemovalDisallowed ∧
    (applyOp pd g op).1.payloadType = pd.payloadType ∧
    (applyOp pd g op).1.payloadScope = pd.payloadScope ∧
    (applyOp pd g op).1.gitrev = pd.gitrev ∧
    (applyOp pd g op).2.gen = g.gen := by
  cases op with
  | addPlist t d m b now =>
    exact ⟨rfl, rfl, rfl, rfl, rfl, rfl, rfl, rfl, rfl⟩
  | addMCX d =>
    exact ⟨rfl, rfl, rfl, rfl, rfl, rfl, rfl, rfl, rfl⟩
  | finalize =>
    show ((if pyTruthy pd.gitrev then _ else pd).payloadUUID = _) ∧ _
    cases h : pyTruthy pd.gitrev <;>
      simp [applyOp, PayloadDict.finalizeAndSave, h]

/-- Helper for C8 and C1: the preservation above, over any operation
sequence. -/
theorem applyOps_preserves (ops : List Op) :
    ∀ (pd : PayloadDict) (g : GenState),
    (applyOps pd g ops).1.payloadUUID = pd.payloadUUID ∧
    (applyOps pd g ops).1.payloadIdentifier = pd.payloadIdentifier ∧
    (applyOps pd g ops).1.payloadVersion = pd.payloadVersion ∧
    (applyOps pd g ops).1.payloadOrganization = pd.payloadOrganization ∧
    (applyOps pd g ops).1.payloadRemovalDisallowed = pd.payloadRemovalDisallowed ∧
    (applyOps pd g ops).1.payloadType = pd.payloadType ∧
    (applyOps pd g ops).1.payloadScope = pd.payloadScope ∧
    (applyOps pd g ops).1.gitrev = pd.gitrev ∧
    (applyOps pd g ops).2.gen = g.gen := by
  induction ops with
  | nil => intro pd g; exact ⟨rfl, rfl, rfl, rfl, rfl, rfl, rfl, rfl, rfl⟩
  | cons op rest ih =>
    intro pd g
    have h1 := applyOp_preserves pd g op
    have h2 := ih (applyOp pd g op).1 (applyOp pd g op).2
    show (applyOps (applyOp pd g op).1 (applyOp pd g op).2 rest).1.payloadUUID = _ ∧ _
    exact ⟨h2.1.trans h1.1,
      h2.2.1.trans h1.2.1,
      h2.2.2.1.trans h1.2.2.1,
      h2.2.2.2.1.trans h1.2.2.2.1,
      h2.2.2.2.2.1.trans h1.2.2.2.2.1,
      h2.2.2.2.2.2.1.trans h1.2.2.2.2.2.1,
      h2.2.2.2.2.2.2.1.trans h1.2.2.2.2.2.2.1,
      h2.2.2.2.2.2.2.2.1.trans h1.2.2.2.2.2.2.2.1,
      h2.2.2.2.2.2.2.2.2.trans h1.2.2.2.2.2.2.2.2⟩

/-- C8: the document's `PayloadUUID` and `PayloadIdentifier` are fixed at
creation (`PayloadUUID` from the supplied value or the fresh draw,
`PayloadIdentifier` from the `identifier` argument) and no sequence of
append/finalize operations ever mutates them — nor the version,
organization, removal flag, type or scope; appends and finalization touch
only the payload sequence, the description and the display name. -/
theorem claim_C8_identity_fields_immutable (identifier : String)
    (uuid : Option String) (removal_allowed : Bool)
    (organization displayname : String) (gitrev : Option String)
    (g : GenState) (ops : List Op) :
    (PayloadDict.init identifier uuid removal_allowed organization
        displayname gitrev g).1.payloadIdentifier = identifier ∧
    (applyOps (PayloadDict.init identifier uuid removal_allowed organization
        displayname gitrev g).1
      (PayloadDict.init identifier uuid removal_allowed organization
        displayname gitrev g).2 ops).1.payloadUUID
      = (PayloadDict.init identifier uuid removal_allowed organization
        displayname gitrev g).1.payloadUUID ∧
    (applyOps (PayloadDict.init identifier uuid removal_allowed organization
        displayname gitrev g).1
      (PayloadDict.init identifier uuid removal_allowed organization
        displayname gitrev g).2 ops).1.payloadIdentifier = identifier ∧
    (applyOps (PayloadDict.init identifier uuid removal_allowed organization
        displayname gitrev g).1
      (PayloadDict.init identifier uuid removal_allowed organization
        displayname gitrev g).2 ops).1.payloadVersion = 1 ∧
    (applyOps (PayloadDict.init identifier uuid removal_allowed organization
        displayname gitrev g).1
      (PayloadDict.init identifier uuid removal_allowed organization
        displayname gitrev g).2 ops).1.payloadOrganization = organization ∧
    (applyOps (PayloadDict.init identifier uuid removal_allowed organization
        displayname gitrev g).1
      (PayloadDict.init identifier uuid removal_allowed organization
        displayname gitrev g).2 ops).1.payloadRemovalDisallowed
      = (if removal_allowed then false else true) ∧
    (applyOps (PayloadDict.init identifier uuid removal_allowed organization
        displayname gitrev g).1
      (PayloadDict.init identifier uuid removal_allowed organization
        displayname gitrev g).2 ops).1.payloadType = "Configuration" ∧
    (applyOps (PayloadDict.init identifier uuid removal_allowed organization
        displayname gitrev g).1
      (PayloadDict.init identifier uuid removal_allowed organization
        displayname gitrev g).2 ops).1.payloadScope = "System" := by
  have h := applyOps_preserves ops
    (PayloadDict.init identifier uuid removal_allowed organization
      displayname gitrev g).1
    (PayloadDict.init identifier uuid removal_allowed organization
      displayname gitrev g).2
  exact ⟨rfl, h.1, h.2.1.trans rfl, h.2.2.1.trans rfl,
    h.2.2.2.1.trans rfl, h.2.2.2.2.1.trans rfl,
    h.2.2.2.2.2.1.trans rfl, h.2.2.2.2.2.2.1.trans rfl⟩

/-- Helper: `String.append` concatenates the underlying character lists. -/
theorem strData_append (a b : String) : (a ++ b).data = a.data ++ b.data := rfl

/-- Helper for C1: for a fixed document UUID, the sub-payload identifier
format determines the entry UUID (the entry UUID is the suffix after a
fixed prefix). -/
theorem subPayloadIdentifier_inj (docUUID a b : String)
    (h : subPayloadIdentifier docUUID a = subPayloadIdentifier docUUID b) :
    a = b := by
  have h2 := congrArg String.data h
  simp only [subPayloadIdentifier, strData_append] at h2
  have h3 := List.append_cancel_left h2
  cases a
  cases b
  exact congrArg String.mk h3

/-- Helper for C1: the exact shape of one `_addPayload` step — one entry
appended, carrying the next fresh UUID and the identifier built by
`subPayloadIdentifier` from the document's UUID, with the document UUID
untouched and the supply advanced by one. -/
theorem addPayload_spec (pd : PayloadDict) (d : List (String × PValue))
    (g : GenState) :
    ∃ newp : Payload,
      (pd._addPayload d g).1.payloadContent = pd.payloadContent ++ [newp] ∧
      newp.payloadUUID = g.gen g.k ∧
      newp.payloadIdentifier = subPayloadIdentifier pd.payloadUUID (g.gen g.k) ∧
      (pd._addPayload d g).1.payloadUUID = pd.payloadUUID ∧
      (pd._addPayload d g).2.k = g.k + 1 ∧
      (pd._addPayload d g).2.gen = g.gen :=
  ⟨{ payloadVersion := 1
     payloadUUID := g.gen g.k
     payloadEnabled := true
     payloadType := "com.apple.ManagedClient.preferences"
     payloadIdentifier := subPayloadIdentifier pd.payloadUUID (g.gen g.k)
     payloadContent := d }, rfl, rfl, rfl, rfl, rfl, rfl⟩

/-- Helper for C1: one `_addPayload` step preserves the entry invariant
(identifier = format of document UUID and own UUID, own UUID drawn from
the supply below the counter) and pairwise distinctness of entry UUIDs. -/
theorem addPayloadStep_invariant (gen0 : Nat → String)
    (hInj : Function.Injective gen0) (pd : PayloadDict)
    (d : List (String × PValue)) (g : GenState) (hg : g.gen = gen0)
    (hinv : ∀ p ∈ pd.payloadContent,
      p.payloadIdentifier = subPayloadIdentifier pd.payloadUUID p.payloadUUID ∧
      ∃ j, j < g.k ∧ p.payloadUUID = gen0 j)
    (hpw : List.Pairwise (fun a b => a.payloadUUID ≠ b.payloadUUID)
      pd.payloadContent) :
    (∀ p ∈ (pd._addPayload d g).1.payloadContent,
      p.payloadIdentifier
        = subPayloadIdentifier (pd._addPayload d g).1.payloadUUID p.payloadUUID ∧
      ∃ j, j < (pd._addPayload d g).2.k ∧ p.payloadUUID = gen0 j) ∧
    List.Pairwise (fun a b => a.payloadUUID ≠ b.payloadUUID)
      (pd._addPayload d g).1.payloadContent := by
  obtain ⟨newp, hc, hu, hid, hduuid, hk, hgen⟩ := addPayload_spec pd d g
  constructor
  · intro p hp
    rw [hc] at hp
    rcases List.mem_append.mp hp with hmem | hmem
    · obtain ⟨h1, j, hj, h2⟩ := hinv p hmem
      refine ⟨by rw [hduuid]; exact h1, j, ?_, h2⟩
      rw [hk]
      exact Nat.lt_succ_of_lt hj
    · have hpn : p = newp := List.mem_singleton.mp hmem
      subst hpn
      refine ⟨by rw [hduuid, hid, hu], g.k, ?_, by rw [hu, hg]⟩
      rw [hk]
      exact Nat.lt_succ_self _
  · rw [hc]
    apply List.pairwise_append.mpr
    refine ⟨hpw, List.pairwise_singleton _ _, ?_⟩
    intro a ha b hb
    have hbn : b = newp := List.mem_singleton.mp hb
    subst hbn
    obtain ⟨-, j, hj, h2⟩ := hinv a ha
    rw [hu, hg]
    intro heq
    have hjk : gen0 j = gen0 g.k := by rw [← h2, heq]
    have := hInj hjk
    omega

/-- Helper for C1: the entry invariant and pairwise-distinct entry UUIDs
are maintained by any operation sequence, provided the supply is
injective. -/
theorem applyOps_entries_invariant (gen0 : Nat → String)
    (hInj : Function.Injective gen0) (ops : List Op) :
    ∀ (pd : PayloadDict) (g : GenState), g.gen = gen0 →
    (∀ p ∈ pd.payloadContent,
      p.payloadIdentifier = subPayloadIdentifier pd.payloadUUID p.payloadUUID ∧
      ∃ j, j < g.k ∧ p.payloadUUID = gen0 j) →
    List.Pairwise (fun a b => a.payloadUUID ≠ b.payloadUUID)
      pd.payloadContent →
    ((∀ p ∈ (applyOps pd g ops).1.payloadContent,
      p.payloadIdentifier
        = subPayloadIdentifier (applyOps pd g ops).1.payloadUUID p.payloadUUID ∧
      ∃ j, j < (applyOps pd g ops).2.k ∧ p.payloadUUID = gen0 j) ∧
     List.Pairwise (fun a b => a.payloadUUID ≠ b.payloadUUID)
       (applyOps pd g ops).1.payloadContent) := by
  induction ops with
  | nil => intro pd g hg hinv hpw; exact ⟨hinv, hpw⟩
  | cons op rest ih =>
    intro pd g hg hinv hpw
    have hg' : (applyOp pd g op).2.gen = gen0 := by
      rw [(applyOp_preserves pd g op).2.2.2.2.2.2.2.2]
      exact hg
    cases op with
    | addPlist t d m b now =>
      have h := addPayloadStep_invariant gen0 hInj pd
        [((if b then d ++ ".ByHost" else d),
          PValue.dict [((if m == "Always" then "Forced" else "Set-Once"),
            PValue.arr [PValue.dict (if m == "Once" then
              [("mcx_preference_settings", t),
               ("mcx_data_timestamp", PValue.date now)]
              else [("mcx_preference_settings", t)])])])]
        g hg hinv hpw
      exact ih _ _ hg' h.1 h.2
    | addMCX d1 =>
      have h := addPayloadStep_invariant gen0 hInj pd d1 g hg hinv hpw
      exact ih _ _ hg' h.1 h.2
    | finalize =>
      have hcontent : (applyOp pd g Op.finalize).1.payloadContent
          = pd.payloadContent := by
        cases h : pyTruthy pd.gitrev <;>
          simp [applyOp, PayloadDict.finalizeAndSave, h]
      have huuid : (applyOp pd g Op.finalize).1.payloadUUID
          = pd.payloadUUID := (applyOp_preserves pd g Op.finalize).1
      apply ih
      · exact hg'
      · intro p hp
        rw [hcontent] at hp
        obtain ⟨h1, j, hj, h2⟩ := hinv p hp
        exact ⟨by rw [huuid]; exact h1, j, hj, h2⟩
      · rw [hcontent]
        exact hpw

/-- Helper: creation never changes the UUID stream itself (it may advance
the counter by one when it draws the document UUID). -/
theorem init_gen_preserved (identifier : String) (uuid : Option String)
    (removal_allowed : Bool) (organization displayname : String)
    (gitrev : Option String) (g : GenState) :
    (PayloadDict.init identifier uuid removal_allowed organization
      displayname gitrev g).2.gen = g.gen := by
  unfold PayloadDict.init
  cases h : pyTruthy uuid <;> simp [makeNewUUID, h]

/-- C1 (amended): every entry's identifier is derived deterministically by
the fixed format `subPayloadIdentifier` from the document's UUID and the
entry's own UUID — the literal prefix `MCXToProfile` takes the place of
the document's identifier — and, provided the freshly drawn entry UUIDs
are distinct (injective supply), the identifiers of all entries appended
to one document are pairwise distinct. -/
theorem claim_C1_entry_identifiers (identifier : String)
    (uuid : Option String) (removal_allowed : Bool)
    (organization displayname : String) (gitrev : Option String)
    (g : GenState) (ops : List Op) (hInj : Function.Injective g.gen) :
    (∀ p ∈ (applyOps
        (PayloadDict.init identifier uuid removal_allowed organization
          displayname gitrev g).1
        (PayloadDict.init identifier uuid removal_allowed organization
          displayname gitrev g).2 ops).1.payloadContent,
      p.payloadIdentifier = subPayloadIdentifier
        (applyOps
          (PayloadDict.init identifier uuid removal_allowed organization
            displayname gitrev g).1
          (PayloadDict.init identifier uuid removal_allowed organization
            displayname gitrev g).2 ops).1.payloadUUID p.payloadUUID) ∧
    List.Pairwise (fun a b => a ≠ b)
      (entryIdentifiers (applyOps
        (PayloadDict.init identifier uuid removal_allowed organization
          displayname gitrev g).1
        (PayloadDict.init identifier uuid removal_allowed organization
          displayname gitrev g).2 ops).1) := by
  have hg0 : (PayloadDict.init identifier uuid removal_allowed organization
      displayname gitrev g).2.gen = g.gen :=
    init_gen_preserved identifier uuid removal_allowed organization
      displayname gitrev g
  have hmain := applyOps_entries_invariant g.gen hInj ops
    (PayloadDict.init identifier uuid removal_allowed organization
      displayname gitrev g).1
    (PayloadDict.init identifier uuid removal_allowed organization
      displayname gitrev g).2
    hg0
    (fun p hp => absurd hp (List.not_mem_nil p))
    List.Pairwise.nil
  refine ⟨fun p hp => (hmain.1 p hp).1, ?_⟩
  have hpw2 : List.Pairwise
      (fun a b => a.payloadIdentifier ≠ b.payloadIdentifier)
      (applyOps
        (PayloadDict.init identifier uuid removal_allowed organization
          displayname gitrev g).1
        (PayloadDict.init identifier uuid removal_allowed organization
          displayname gitrev g).2 ops).1.payloadContent := by
    refine hmain.2.imp_of_mem ?_
    intro a b ha hb hab
    have hfa := (hmain.1 a ha).1
    have hfb := (hmain.1 b hb).1
    rw [hfa, hfb]
    intro heq
    exact hab (subPayloadIdentifier_inj _ _ _ heq)
  exact List.pairwise_map.mpr hpw2

/-- Counterexample for C1 as stated: the entry identifier does not depend
on the document's identifier — two documents created with distinct
identifiers but the same UUID draws produce the identical entry
identifier, built from the literal `MCXToProfile` instead. -/
theorem claim_C1_counterexample :
    entryIdentifiers (applyOps
      (PayloadDict.init "com.example.a" (some "DOC-UUID") false "" "" none
        ⟨fun _ => "ENTRY-UUID", 0⟩).1
      (PayloadDict.init "com.example.a" (some "DOC-UUID") false "" "" none
        ⟨fun _ => "ENTRY-UUID", 0⟩).2
      [Op.addPlist (PValue.dict []) "com.apple.dock" "Always" false 0]).1
    = entryIdentifiers (applyOps
      (PayloadDict.init "com.example.b" (some "DOC-UUID") false "" "" none
        ⟨fun _ => "ENTRY-UUID", 0⟩).1
      (PayloadDict.init "com.example.b" (some "DOC-UUID") false "" "" none
        ⟨fun _ => "ENTRY-UUID", 0⟩).2
      [Op.addPlist (PValue.dict []) "com.apple.dock" "Always" false 0]).1
    ∧ ("com.example.a" : String) ≠ "com.example.b"
    ∧ entryIdentifiers (applyOps
      (PayloadDict.init "com.example.a" (some "DOC-UUID") false "" "" none
        ⟨fun _ => "ENTRY-UUID", 0⟩).1
      (PayloadDict.init "com.example.a" (some "DOC-UUID") false "" "" none
        ⟨fun _ => "ENTRY-UUID", 0⟩).2
      [Op.addPlist (PValue.dict []) "com.apple.dock" "Always" false 0]).1
      = ["MCXToProfile.DOC-UUID.alacarte.customsettings.ENTRY-UUID"] :=
  ⟨by decide, by decide, by decide⟩

/-- Helper: the witness supply (unary-length-coded strings) is injective. -/
theorem repGen_injective :
    Function.Injective (fun n => (⟨List.replicate n 'a'⟩ : String)) := by
  intro a b h
  have h2 := congrArg (fun s : String => s.data.length) h
  simpa using h2

/-- Witness for C1 (amended) on a concrete injective supply and a
two-append run. -/
theorem claim_C1_entry_identifiers_witness :
    Function.Injective
      (⟨fun n => (⟨List.replicate n 'a'⟩ : String), 0⟩ : GenState).gen ∧
    List.Pairwise (fun a b => a ≠ b)
      (entryIdentifiers (applyOps
        (PayloadDict.init "com.example.test" none false "" "" none
          ⟨fun n => (⟨List.replicate n 'a'⟩ : String), 0⟩).1
        (PayloadDict.init "com.example.test" none false "" "" none
          ⟨fun n => (⟨List.replicate n 'a'⟩ : String), 0⟩).2
        [Op.addMCX [("com.apple.dock", PValue.dict [])],
         Op.addMCX [("com.apple.finder", PValue.dict [])]]).1) :=
  ⟨repGen_injective,
   (claim_C1_entry_identifiers "com.example.test" none false "" "" none
     ⟨fun n => (⟨List.replicate n 'a'⟩ : String), 0⟩
     [Op.addMCX [("com.apple.dock", PValue.dict [])],
      Op.addMCX [("com.apple.finder", PValue.dict [])]]
     repGen_injective).2⟩

/-- Helper: `takeWhile` keeps an entire block of satisfying elements up to
the first failing one. -/
theorem takeWhile_append_block (p : Char → Bool) (l1 : List Char) (x : Char)
    (l2 : List Char) (hall : ∀ c ∈ l1, p c = true) (hx : p x = false) :
    (l1 ++ x :: l2).takeWhile p = l1 := by
  induction l1 with
  | nil => simp [List.takeWhile, hx]
  | cons c cs ih =>
    have hc := hall c (List.mem_cons_self c cs)
    simp only [List.cons_append, List.takeWhile, hc]
    exact congrArg (fun t => c :: t)
      (ih (fun d hd => hall d (List.mem_cons_of_mem c hd)))

/-- Helper: `takeWhile` keeps a list all of whose elements satisfy the
predicate. -/
theorem takeWhile_all (p : Char → Bool) (l : List Char)
    (hall : ∀ c ∈ l, p c = true) : l.takeWhile p = l := by
  induction l with
  | nil => rfl
  | cons c cs ih =>
    have hc := hall c (List.mem_cons_self c cs)
    simp only [List.takeWhile, hc]
    rw [ih (fun d hd => hall d (List.mem_cons_of_mem c hd))]

/-- Helper: `os.path.basename` of `dir ++ "/" ++ name` is `name` when the
name itself carries no slash. -/
theorem basenameL_strips_dirs (d nm : List Char) (h : '/' ∉ nm) :
    basenameL (d ++ '/' :: nm) = nm := by
  unfold basenameL
  have hrev : (d ++ '/' :: nm).reverse = nm.reverse ++ '/' :: d.reverse := by
    simp
  rw [hrev, takeWhile_append_block _ _ _ _ ?_ (by simp)]
  · exact List.reverse_reverse nm
  · intro c hc
    have : c ∈ nm := List.mem_reverse.mp hc
    simp only [ne_eq, decide_eq_true_eq]
    intro hcs
    exact h (hcs ▸ this)

/-- Helper: `os.path.basename` is the identity on slash-free names. -/
theorem basenameL_no_slash (nm : List Char) (h : '/' ∉ nm) :
    basenameL nm = nm := by
  unfold basenameL
  rw [takeWhile_all _ _ ?_, List.reverse_reverse]
  intro c hc
  have : c ∈ nm := List.mem_reverse.mp hc
  simp only [ne_eq, decide_eq_true_eq]
  intro hcs
  exact h (hcs ▸ this)

/-- Helper: what `findSub` returns is the index of an occurrence, and no
occurrence starts earlier. -/
theorem findSub_some_spec (sep : List Char) (l : List Char) (i : Nat)
    (h : findSub sep l = some i) :
    sep.isPrefixOf (l.drop i) = true ∧
    ∀ j, j < i → sep.isPrefixOf (l.drop j) = false := by
  induction l generalizing i with
  | nil =>
    unfold findSub at h
    by_cases hs : sep.isEmpty
    · rw [if_pos hs] at h
      injection h with h0
      subst h0
      refine ⟨?_, fun j hj => absurd hj (Nat.not_lt_zero j)⟩
      have : sep = [] := List.isEmpty_iff.mp hs
      subst this
      rfl
    · rw [if_neg hs] at h
      exact absurd h (by simp)
  | cons c cs ih =>
    unfold findSub at h
    by_cases hpre : sep.isPrefixOf (c :: cs) = true
    · rw [if_pos hpre] at h
      injection h with h0
      subst h0
      exact ⟨hpre, fun j hj => absurd hj (Nat.not_lt_zero j)⟩
    · rw [if_neg hpre] at h
      cases hf : findSub sep cs with
      | none => rw [hf] at h; exact absurd h (by simp)
      | some i' =>
        rw [hf] at h
        have h' : some (i' + 1) = some i := h
        injection h' with h0
        subst h0
        obtain ⟨hp, hmin⟩ := ih i' hf
        refine ⟨hp, ?_⟩
        intro j hj
        cases j with
        | zero =>
          rw [List.drop_zero]
          exact Bool.eq_false_iff.mpr hpre
        | succ j' =>
          exact hmin j' (Nat.lt_of_succ_lt_succ hj)

/-- Helper: when `findSub` finds nothing, no occurrence exists at any
index. -/
theorem findSub_none_spec (sep : List Char) (l : List Char)
    (h : findSub sep l = none) (hsep : sep ≠ []) :
    ∀ j, sep.isPrefixOf (l.drop j) = false := by
  induction l with
  | nil =>
    intro j
    rw [List.drop_nil]
    cases sep with
    | nil => exact absurd rfl hsep
    | cons s ss => rfl
  | cons c cs ih =>
    unfold findSub at h
    by_cases hpre : sep.isPrefixOf (c :: cs) = true
    · rw [if_pos hpre] at h; exact absurd h (by simp)
    · rw [if_neg hpre] at h
      cases hf : findSub sep cs with
      | some i' => rw [hf] at h; exact absurd h (by simp)
      | none =>
        intro j
        cases j with
        | zero =>
          rw [List.drop_zero]
          exact Bool.eq_false_iff.mpr hpre
        | succ j' => exact ih hf j'

/-- Helper: rebuilding a string from its characters is the identity. -/
theorem strMk_data (n : String) : (⟨n.data⟩ : String) = n := by
  cases n
  rfl

/-- C2 (amended): domain inference strips any directory components, and
strips everything from the FIRST occurrence of `".plist"` onward (not just
a final occurrence): the kept part is the prefix before the first
occurrence, and no occurrence starts earlier. It is the identity (hence
idempotent) on names with no directory part, no `".plist"` occurrence and
no ByHost-shaped suffix (where, like the regex's `$` anchor, the suffix
test discounts one trailing newline), and
`infer("com.apple.finder.plist") = ("com.apple.finder", false)`. -/
theorem claim_C2_plist_stripping :
    (∀ d name : String, '/' ∉ name.data →
      getDomainFromPlist (d ++ "/" ++ name) = getDomainFromPlist name) ∧
    (∀ l : List Char, ∀ i : Nat, findSub ".plist".data l = some i →
      (∃ rest, l = takeUntilSub ".plist".data l ++ ".plist".data ++ rest) ∧
      takeUntilSub ".plist".data l = l.take i ∧
      ∀ j, j < i → ".plist".data.isPrefixOf (l.drop j) = false) ∧
    (∀ l : List Char, findSub ".plist".data l = none →
      takeUntilSub ".plist".data l = l) ∧
    (∀ n : String, hasSub ".plist".data n.data = false → '/' ∉ n.data →
      byhostMatchL n.data = false → getDomainFromPlist n = ⟨n, false⟩) ∧
    getDomainFromPlist "com.apple.finder.plist" = ⟨"com.apple.finder", false⟩ := by
  refine ⟨?_, ?_, ?_, ?_, by decide⟩
  · intro d name h
    have hdata : (d ++ "/" ++ name).data = d.data ++ '/' :: name.data := by
      rw [strData_append, strData_append]
      simp
    unfold getDomainFromPlist
    rw [hdata, basenameL_strips_dirs _ _ h, basenameL_no_slash _ h]
  · intro l i h
    obtain ⟨hp, hmin⟩ := findSub_some_spec _ l i h
    have htake : takeUntilSub ".plist".data l = l.take i := by
      unfold takeUntilSub
      rw [h]
    refine ⟨?_, htake, hmin⟩
    have hpre : ".plist".data <+: l.drop i := List.isPrefixOf_iff_prefix.mp hp
    obtain ⟨rest, hrest⟩ := hpre
    refine ⟨rest, ?_⟩
    rw [htake]
    calc l = l.take i ++ l.drop i := (List.take_append_drop i l).symm
      _ = l.take i ++ (".plist".data ++ rest) := by rw [hrest]
      _ = l.take i ++ ".plist".data ++ rest := by rw [List.append_assoc]
  · intro l h
    unfold takeUntilSub
    rw [h]
  · intro n h1 h2 h3
    have hf : findSub ".plist".data n.data = none := by
      unfold hasSub at h1
      cases hff : findSub ".plist".data n.data with
      | none => rfl
      | some i => rw [hff] at h1; exact absurd h1 (by simp)
    have ht : takeUntilSub ".plist".data n.data = n.data := by
      unfold takeUntilSub
      rw [hf]
    unfold getDomainFromPlist
    rw [basenameL_no_slash n.data h2, ht]
    simp only [h3, Bool.false_eq_true, if_false]

/-- Counterexample for C2 as stated: the code splits at the FIRST
occurrence of `".plist"`, not the final one — on
`"my.plist.com.apple.finder.plist"` it keeps only `"my"`, not
`"my.plist.com.apple.finder"` — and it is not idempotent on all
already-stripped names: the stripped name `"a.ByHost"` (itself the output
for `"a.ByHost.ByHost.plist"`) is stripped again to `"a"`. -/
theorem claim_C2_plist_stripping_counterexample :
    getDomainFromPlist "my.plist.com.apple.finder.plist" = ⟨"my", false⟩ ∧
    ("my" : String) ≠ "my.plist.com.apple.finder" ∧
    (getDomainFromPlist "a.ByHost.ByHost.plist").name = "a.ByHost" ∧
    getDomainFromPlist "a.ByHost" = ⟨"a", true⟩ ∧
    ("a" : String) ≠ "a.ByHost" :=
  ⟨by decide, by decide, by decide, by decide, by decide⟩

/-- Witness for C2 (amended) at concrete inputs: a directory prefix is
dropped, and a stripped, ByHost-free name is returned unchanged. -/
theorem claim_C2_plist_stripping_witness :
    getDomainFromPlist ("Library" ++ "/" ++ "com.apple.finder.plist")
      = getDomainFromPlist "com.apple.finder.plist" ∧
    getDomainFromPlist "com.apple.on" = ⟨"com.apple.on", false⟩ :=
  ⟨claim_C2_plist_stripping.1 "Library" "com.apple.finder.plist" (by decide),
   claim_C2_plist_stripping.2.2.2.1 "com.apple.on" (by decide) (by decide)
     (by decide)⟩

/-- Helper: a list whose `i`-th element is `c` decomposes at `i` after a
`drop`. -/
theorem drop_eq_cons_of_getQ (t : List Char) (i : Nat) (c : Char)
    (h : t.get? i = some c) : t.drop i = c :: t.drop (i + 1) := by
  have h' : t[i]? = some c := by rw [← List.get?_eq_getElem?]; exact h
  have hh : (t.drop i).head? = some c := by rw [List.head?_drop]; exact h'
  cases hd : t.drop i with
  | nil => rw [hd] at hh; exact absurd hh (by simp)
  | cons x rest =>
    rw [hd] at hh
    injection hh with hx
    have htl := List.tail_drop t i
    rw [hd] at htl
    have hrest : rest = t.drop (i + 1) := htl
    rw [hx, hrest]

/-- Helper: the conjuncts of the 8-4-4-4-12 shape check. -/
theorem uuid36_parts (t : List Char) (h : uuid36 t = true) :
    t.length = 36 ∧ (t.take 8).all hexDigit = true ∧ t.get? 8 = some '-' ∧
    ((t.drop 9).take 4).all hexDigit = true ∧ t.get? 13 = some '-' ∧
    ((t.drop 14).take 4).all hexDigit = true ∧ t.get? 18 = some '-' ∧
    ((t.drop 19).take 4).all hexDigit = true ∧ t.get? 23 = some '-' ∧
    (t.drop 24).all hexDigit = true := by
  unfold uuid36 at h
  simp only [Bool.and_eq_true, beq_iff_eq] at h
  obtain ⟨⟨⟨⟨⟨⟨⟨⟨⟨h1, h2⟩, h3⟩, h4⟩, h5⟩, h6⟩, h7⟩, h8⟩, h9⟩, h10⟩ := h
  exact ⟨h1, h2, h3, h4, h5, h6, h7, h8, h9, h10⟩

/-- Helper: the 8-4-4-4-12 shape decomposes into five all-hex chunks
separated by dashes. -/
theorem uuid36_decomp (t : List Char) (h : uuid36 t = true) :
    ∃ a b c d e : List Char,
      t = a ++ '-' :: (b ++ '-' :: (c ++ '-' :: (d ++ '-' :: e))) ∧
      a.all hexDigit = true ∧ b.all hexDigit = true ∧ c.all hexDigit = true ∧
      d.all hexDigit = true ∧ e.all hexDigit = true := by
  obtain ⟨hlen, hA, h8, hB, h13, hC, h18, hD, h23, hE⟩ := uuid36_parts t h
  refine ⟨t.take 8, (t.drop 9).take 4, (t.drop 14).take 4, (t.drop 19).take 4,
    t.drop 24, ?_, hA, hB, hC, hD, hE⟩
  have e8 := drop_eq_cons_of_getQ t 8 '-' h8
  have e13 := drop_eq_cons_of_getQ t 13 '-' h13
  have e18 := drop_eq_cons_of_getQ t 18 '-' h18
  have e23 := drop_eq_cons_of_getQ t 23 '-' h23
  have s9 : t.drop 9 = (t.drop 9).take 4 ++ t.drop 13 := by
    have hs := (List.take_append_drop 4 (t.drop 9)).symm
    rw [List.drop_drop] at hs
    exact hs
  have s14 : t.drop 14 = (t.drop 14).take 4 ++ t.drop 18 := by
    have hs := (List.take_append_drop 4 (t.drop 14)).symm
    rw [List.drop_drop] at hs
    exact hs
  have s19 : t.drop 19 = (t.drop 19).take 4 ++ t.drop 23 := by
    have hs := (List.take_append_drop 4 (t.drop 19)).symm
    rw [List.drop_drop] at hs
    exact hs
  conv_lhs => rw [← List.take_append_drop 8 t, e8, s9, e13, s14, e18, s19, e23]

/-- Helper: none of the three ByHost token shapes contains a dot. -/
theorem token_no_dot (tok : List Char)
    (h : tok = "ByHost".data ∨
      (tok.length = 12 ∧ tok.all hexDigit = true) ∨ uuid36 tok = true) :
    '.' ∉ tok := by
  intro hmem
  rcases h with h | ⟨-, h⟩ | h
  · subst h
    exact absurd hmem (by decide)
  · exact absurd (List.all_eq_true.mp h '.' hmem) (by decide)
  · obtain ⟨a, b, c, d, e, ht, ha, hb, hc, hd, he⟩ := uuid36_decomp tok h
    subst ht
    simp only [List.mem_append, List.mem_cons] at hmem
    rcases hmem with h1 | h1 | h1 | h1 | h1 | h1 | h1 | h1 | h1
    · exact absurd (List.all_eq_true.mp ha '.' h1) (by decide)
    · exact absurd h1 (by decide)
    · exact absurd (List.all_eq_true.mp hb '.' h1) (by decide)
    · exact absurd h1 (by decide)
    · exact absurd (List.all_eq_true.mp hc '.' h1) (by decide)
    · exact absurd h1 (by decide)
    · exact absurd (List.all_eq_true.mp hd '.' h1) (by decide)
    · exact absurd h1 (by decide)
    · exact absurd (List.all_eq_true.mp he '.' h1) (by decide)

/-- Helper: one `$`-anchored dot-plus-token alternative matches exactly
when the list decomposes as anything, a dot, and an `n`-character token
satisfying the shape. -/
theorem dotSuffixMatch_iff (l : List Char) (n : Nat) (p : List Char → Bool) :
    dotSuffixMatch l n p = true ↔
      ∃ pre t : List Char, l = pre ++ '.' :: t ∧ t.length = n ∧ p t = true := by
  unfold dotSuffixMatch
  simp only [Bool.and_eq_true, beq_iff_eq, decide_eq_true_eq]
  constructor
  · rintro ⟨⟨hlen, hdot⟩, hp⟩
    have hget : l.get? (l.length - (n + 1)) = some '.' := by
      rw [List.get?_eq_getElem?, ← List.head?_drop]
      exact hdot
    have hL1 : lastN l (n + 1) = '.' :: lastN l n := by
      unfold lastN
      have hc := drop_eq_cons_of_getQ l (l.length - (n + 1)) '.' hget
      rw [hc]
      congr 2
      omega
    refine ⟨l.take (l.length - (n + 1)), lastN l n, ?_, ?_, hp⟩
    · have hdef : l.drop (l.length - (n + 1)) = '.' :: lastN l n := hL1
      calc l = l.take (l.length - (n + 1)) ++ l.drop (l.length - (n + 1)) :=
          (List.take_append_drop _ l).symm
        _ = l.take (l.length - (n + 1)) ++ '.' :: lastN l n := by rw [hdef]
    · unfold lastN
      rw [List.length_drop]
      omega
  · rintro ⟨pre, t, hl, htl, hp⟩
    subst hl
    have hlen : (pre ++ '.' :: t).length = pre.length + n + 1 := by
      simp [List.length_append, htl]
      omega
    have hL1 : lastN (pre ++ '.' :: t) (n + 1) = '.' :: t := by
      unfold lastN
      have hidx : (pre ++ '.' :: t).length - (n + 1) = pre.length := by omega
      rw [hidx]
      exact List.drop_left pre ('.' :: t)
    have hL0 : lastN (pre ++ '.' :: t) n = t := by
      unfold lastN
      have hidx : (pre ++ '.' :: t).length - n = pre.length + 1 := by omega
      rw [hidx]
      have hsplit : pre ++ '.' :: t = (pre ++ ['.']) ++ t := by simp
      rw [hsplit]
      have hplen : pre.length + 1 = (pre ++ ['.']).length := by simp
      rw [hplen]
      exact List.drop_left _ _
    refine ⟨⟨by omega, by rw [hL1]; rfl⟩, by rw [hL0]; exact hp⟩

/-- Helper: `str.split` never produces an empty list of chunks. -/
theorem splitChar_ne_nil (c : Char) (l : List Char) : splitChar c l ≠ [] := by
  induction l with
  | nil => simp [splitChar]
  | cons x xs ih =>
    unfold splitChar
    by_cases hx : x = c
    · simp [hx]
    · rw [if_neg hx]
      cases hs : splitChar c xs with
      | nil => simp
      | cons h t => simp

/-- Helper: `splitChar` equation at a separator head. -/
theorem splitChar_cons_pos (c : Char) (xs : List Char) :
    splitChar c (c :: xs) = [] :: splitChar c xs := by
  conv_lhs => unfold splitChar
  rw [if_pos rfl]

/-- Helper: `splitChar` equation at a non-separator head. -/
theorem splitChar_cons_neg (c x : Char) (xs : List Char) (hx : ¬ x = c) :
    splitChar c (x :: xs) =
      match splitChar c xs with
      | [] => [[x]]
      | h :: t => (x :: h) :: t := by
  conv_lhs => unfold splitChar
  rw [if_neg hx]

/-- Helper: splitting at an explicit separator occurrence concatenates the
splits of the two sides. -/
theorem splitChar_append (c : Char) (a b : List Char) :
    splitChar c (a ++ c :: b) = splitChar c a ++ splitChar c b := by
  induction a with
  | nil =>
    show splitChar c (c :: b) = splitChar c [] ++ splitChar c b
    rw [splitChar_cons_pos]
    rfl
  | cons x xs ih =>
    by_cases hx : x = c
    · subst hx
      show splitChar x (x :: (xs ++ x :: b)) = splitChar x (x :: xs) ++ splitChar x b
      rw [splitChar_cons_pos, splitChar_cons_pos, ih]
      rfl
    · have hne := splitChar_ne_nil c xs
      cases hs : splitChar c xs with
      | nil => exact absurd hs hne
      | cons h t =>
        show splitChar c (x :: (xs ++ c :: b)) = splitChar c (x :: xs) ++ splitChar c b
        rw [splitChar_cons_neg c x _ hx, splitChar_cons_neg c x _ hx, ih, hs]
        rfl

/-- Helper: a separator-free list splits into a single chunk. -/
theorem splitChar_no_sep (c : Char) (l : List Char) (h : c ∉ l) :
    splitChar c l = [l] := by
  induction l with
  | nil => rfl
  | cons x xs ih =>
    have hx : ¬ x = c := by
      intro he
      exact h (by rw [← he]; exact List.mem_cons_self x xs)
    have ihx := ih (fun hm => h (List.mem_cons_of_mem x hm))
    rw [splitChar_cons_neg c x xs hx, ihx]

/-- Helper: joining the split is the identity. -/
theorem joinSep_splitChar (c : Char) (l : List Char) :
    joinSep c (splitChar c l) = l := by
  induction l with
  | nil => rfl
  | cons x xs ih =>
    have hne := splitChar_ne_nil c xs
    cases hs : splitChar c xs with
    | nil => exact absurd hs hne
    | cons h t =>
      have ihx : joinSep c (h :: t) = xs := by rw [← hs]; exact ih
      by_cases hx : x = c
      · subst hx
        rw [splitChar_cons_pos, hs]
        show ([] : List Char) ++ x :: joinSep x (h :: t) = x :: xs
        rw [ihx]
        rfl
      · rw [splitChar_cons_neg c x xs hx, hs]
        show joinSep c ((x :: h) :: t) = x :: xs
        cases t with
        | nil =>
          show x :: h = x :: xs
          rw [show h = xs from ihx]
        | cons t1 ts =>
          show (x :: h) ++ c :: joinSep c (t1 :: ts) = x :: xs
          have hx2 : h ++ c :: joinSep c (t1 :: ts) = xs := ihx
          rw [List.cons_append, hx2]

/-- Helper: dropping the last dot-component of `pre ++ "." ++ tok` with a
dot-free `tok` gives back `pre`. -/
theorem dropLastComponentL_append (pre tok : List Char) (h : '.' ∉ tok) :
    dropLastComponentL (pre ++ '.' :: tok) = pre := by
  unfold dropLastComponentL
  rw [splitChar_append, splitChar_no_sep _ _ h, List.dropLast_concat,
    joinSep_splitChar]

/-- Helper: a list is its `$`-trimmed form, possibly with one trailing
newline restored. -/
theorem dollarTrim_cases (l : List Char) :
    l = dollarTrim l ∨ l = dollarTrim l ++ ['\n'] := by
  unfold dollarTrim
  by_cases h : l.getLast? = some '\n'
  · rw [if_pos h]
    right
    have hne : l ≠ [] := by
      intro he
      rw [he] at h
      exact absurd h (by simp)
    have hlast := List.getLast?_eq_getLast l hne
    rw [hlast] at h
    injection h with hc
    conv_lhs => rw [← List.dropLast_append_getLast hne]
    rw [hc]
  · rw [if_neg h]
    left
    rfl

/-- Helper: the code's regex matches exactly the names that — after
discounting one trailing newline, as the `$` anchor does — decompose as
anything, a dot, and one of the three token shapes. -/
theorem byhostMatchL_iff (l : List Char) :
    byhostMatchL l = true ↔
      ∃ pre tok : List Char, dollarTrim l = pre ++ '.' :: tok ∧
        (tok = "ByHost".data ∨
         (tok.length = 12 ∧ tok.all hexDigit = true) ∨
         uuid36 tok = true) := by
  unfold byhostMatchL
  rw [Bool.or_eq_true, Bool.or_eq_true, dotSuffixMatch_iff, dotSuffixMatch_iff,
    dotSuffixMatch_iff]
  constructor
  · rintro ((⟨pre, t, hl, hlen, hp⟩ | ⟨pre, t, hl, hlen, hp⟩) |
      ⟨pre, t, hl, hlen, hp⟩)
    · exact ⟨pre, t, hl, Or.inl (by simpa using hp)⟩
    · exact ⟨pre, t, hl, Or.inr (Or.inl ⟨hlen, hp⟩)⟩
    · exact ⟨pre, t, hl, Or.inr (Or.inr hp)⟩
  · rintro ⟨pre, tok, hl, hshape⟩
    rcases hshape with h | ⟨h1, h2⟩ | h
    · exact Or.inl (Or.inl ⟨pre, tok, hl, by rw [h]; rfl, by simp [h]⟩)
    · exact Or.inl (Or.inr ⟨pre, tok, hl, h1, h2⟩)
    · exact Or.inr ⟨pre, tok, hl, (uuid36_parts tok h).1, h⟩

/-- Helper: strings with equal character lists are equal. -/
theorem strExt (a b : String) (h : a.data = b.data) : a = b := by
  cases a
  cases b
  exact congrArg String.mk h

/-- Helper: the spec-side token predicate, unfolded to the three shapes on
the character list. -/
theorem isByHostToken_shape (tok : String) (htok : isByHostToken tok = true) :
    tok.data = "ByHost".data ∨
    (tok.data.length = 12 ∧ tok.data.all hexDigit = true) ∨
    uuid36 tok.data = true := by
  unfold isByHostToken at htok
  simp only [Bool.or_eq_true, Bool.and_eq_true, beq_iff_eq] at htok
  rcases htok with (h | ⟨ha, hb⟩) | h
  · exact Or.inl (congrArg String.data h)
  · exact Or.inr (Or.inl ⟨ha, hb⟩)
  · exact Or.inr (Or.inr h)

/-- Helper: converse direction of the token predicate. -/
theorem isByHostToken_of_shape (tokL : List Char)
    (h : tokL = "ByHost".data ∨
      (tokL.length = 12 ∧ tokL.all hexDigit = true) ∨ uuid36 tokL = true) :
    isByHostToken ⟨tokL⟩ = true := by
  unfold isByHostToken
  simp only [Bool.or_eq_true, Bool.and_eq_true, beq_iff_eq]
  rcases h with h | ⟨ha, hb⟩ | h
  · exact Or.inl (Or.inl (strExt _ _ h))
  · exact Or.inl (Or.inr ⟨ha, hb⟩)
  · exact Or.inr h

/-- Helper: on a name that is already path- and `.plist`-free, domain
inference is exactly the ByHost test-and-strip. -/
theorem getDomainFromPlist_stripped (n : String)
    (h1 : basenameL n.data = n.data)
    (h2 : takeUntilSub ".plist".data n.data = n.data) :
    getDomainFromPlist n =
      if byhostMatchL n.data then
        ⟨⟨dropLastComponentL n.data⟩, true⟩
      else ⟨n, false⟩ := by
  unfold getDomainFromPlist
  rw [h1, h2]

/-- Helper: the string-level ByHost decomposition of the `$`-trimmed name
is equivalent to the code's regex on the characters. -/
theorem byhost_string_decomp (n : String) :
    (∃ pre tok : String, (⟨dollarTrim n.data⟩ : String) = pre ++ "." ++ tok ∧
      isByHostToken tok = true) ↔
      byhostMatchL n.data = true := by
  rw [byhostMatchL_iff]
  constructor
  · rintro ⟨pre, tok, heq, htok⟩
    refine ⟨pre.data, tok.data, ?_, isByHostToken_shape tok htok⟩
    have hd := congrArg String.data heq
    rw [strData_append, strData_append] at hd
    simpa using hd
  · rintro ⟨preL, tokL, heq, hshape⟩
    refine ⟨⟨preL⟩, ⟨tokL⟩, ?_, isByHostToken_of_shape tokL hshape⟩
    apply strExt
    rw [heq, strData_append, strData_append]
    simp

/-- C5 (amended): on names already stripped of path and `.plist`, domain
inference marks is-byhost true exactly when the name — after discounting
one trailing newline, which the regex's `$` anchor skips — decomposes as
anything, a dot, and one of the three token shapes (literal `ByHost`,
12 hex digits, or 8-4-4-4-12 hex); when it does, the trailing
dot-separated component of the full name is stripped and the prefix
returned; otherwise the full name is returned with is-byhost false. The
three spec examples evaluate as claimed. -/
theorem claim_C5_byhost_detection :
    (∀ n : String, basenameL n.data = n.data →
      takeUntilSub ".plist".data n.data = n.data →
      (((getDomainFromPlist n).is_byhost = true ↔
          ∃ pre tok : String, (⟨dollarTrim n.data⟩ : String) = pre ++ "." ++ tok ∧
            isByHostToken tok = true) ∧
        (∀ pre tok : String, (⟨dollarTrim n.data⟩ : String) = pre ++ "." ++ tok →
          isByHostToken tok = true → getDomainFromPlist n = ⟨pre, true⟩) ∧
        ((getDomainFromPlist n).is_byhost = false →
          getDomainFromPlist n = ⟨n, false⟩))) ∧
    getDomainFromPlist "com.apple.x.001122334455.plist" = ⟨"com.apple.x", true⟩ ∧
    getDomainFromPlist "com.apple.x.ByHost.plist" = ⟨"com.apple.x", true⟩ ∧
    getDomainFromPlist "com.apple.x.12345678-1234-1234-1234-123456789012.plist"
      = ⟨"com.apple.x", true⟩ := by
  refine ⟨?_, by decide, by decide, by decide⟩
  intro n h1 h2
  have hmain := getDomainFromPlist_stripped n h1 h2
  refine ⟨?_, ?_, ?_⟩
  · rw [hmain]
    cases hb : byhostMatchL n.data
    · simp only [hb, Bool.false_eq_true, if_false]
      constructor
      · intro hfalse
        exact absurd hfalse (by simp)
      · intro hex
        have := (byhost_string_decomp n).mp hex
        rw [hb] at this
        exact absurd this (by simp)
    · simp only [hb, if_true]
      constructor
      · intro _
        exact (byhost_string_decomp n).mpr hb
      · intro _
        trivial
  · intro pre tok heq htok
    have hbm : byhostMatchL n.data = true :=
      (byhost_string_decomp n).mp ⟨pre, tok, heq, htok⟩
    rw [hmain]
    simp only [hbm, if_true]
    have htrim : dollarTrim n.data = pre.data ++ '.' :: tok.data := by
      have hd := congrArg String.data heq
      rw [strData_append, strData_append] at hd
      simpa using hd
    have hnodot : '.' ∉ tok.data :=
      token_no_dot tok.data (isByHostToken_shape tok htok)
    rcases dollarTrim_cases n.data with hcase | hcase
    · have hnd : n.data = pre.data ++ '.' :: tok.data := by rw [hcase, htrim]
      rw [hnd, dropLastComponentL_append _ _ hnodot, strMk_data]
    · have hnd : n.data = pre.data ++ '.' :: (tok.data ++ ['\n']) := by
        rw [hcase, htrim]
        simp
      have hnodot2 : '.' ∉ tok.data ++ ['\n'] := by
        intro hm
        rcases List.mem_append.mp hm with hm | hm
        · exact hnodot hm
        · exact absurd hm (by decide)
      rw [hnd, dropLastComponentL_append _ _ hnodot2, strMk_data]
  · intro hfalse
    rw [hmain]
    cases hb : byhostMatchL n.data
    · simp only [hb, Bool.false_eq_true, if_false]
    · rw [hmain] at hfalse
      rw [hb] at hfalse
      exact absurd hfalse (by simp)

/-- Counterexample for C5 as stated: Python's `$` also matches just before
a trailing newline, so on the stripped name `"x.ByHost\n"` the program
marks is-byhost true and strips the last dot-component, although that
name does not end in the literal suffix `".ByHost"` nor in any of the
three dot-token shapes. -/
theorem claim_C5_byhost_detection_counterexample :
    getDomainFromPlist "x.ByHost\n" = ⟨"x", true⟩ ∧
    ".ByHost".data.isSuffixOf "x.ByHost\n".data = false ∧
    dotSuffixMatch "x.ByHost\n".data 6 (fun t => t == "ByHost".data) = false ∧
    dotSuffixMatch "x.ByHost\n".data 12 (fun t => t.all hexDigit) = false ∧
    dotSuffixMatch "x.ByHost\n".data 36 uuid36 = false :=
  ⟨by decide, by decide, by decide, by decide, by decide⟩

/-- Witness for C5 (amended) at a concrete stripped name with a `ByHost`
token. -/
theorem claim_C5_byhost_detection_witness :
    getDomainFromPlist "com.apple.x.ByHost" = ⟨"com.apple.x", true⟩ :=
  (claim_C5_byhost_detection.1 "com.apple.x.ByHost" (by decide)
    (by decide)).2.1 "com.apple.x" "ByHost" (by decide) (by decide)
